import Mathlib

/-
Verification of the SUMP logic-analyzer core (`src/logic_analyzer.h`).

The C++ code is shallowly embedded: sample words (the template parameter `T`,
an unsigned 8/16/32-bit integer) are modelled as `Nat`; the heap array behind
the ring buffer (`T *data`) is modelled as a total map `Nat → Nat` from slot
indices to stored words, so that the source's cursor arithmetic — which
addresses the slots `0 .. size_count` inclusive — is translated verbatim;
stateful member functions become pure functions from the record of the object's
fields to an updated record (paired with their C++ return value where one
exists).
-/

namespace logic_analyzer

/- `enum Status {ARMED, TRIGGERED, STOPPED}` -/
inductive Status where
  | ARMED | TRIGGERED | STOPPED
deriving DecidableEq, Repr

/- `enum Event {RESET, STATUS, CAPUTRE_SIZE, CAPTURE_FREQUNCY, TRIGGER_VALUES,
   TRIGGER_MASK, READ_DLEAY_COUNT, FLAGS}` (constructor spellings as in the source) -/
inductive Event where
  | RESET | STATUS | CAPUTRE_SIZE | CAPTURE_FREQUNCY
  | TRIGGER_VALUES | TRIGGER_MASK | READ_DLEAY_COUNT | FLAGS
deriving DecidableEq, Repr

/- Fields of `template <class T> class RingBuffer`.  `data` is the backing
   store; the constructor's `new T[size]` leaves it uninitialized, so the
   initial contents are an arbitrary map `mem` supplied to `RingBuffer.init`. -/
structure RingBuffer where
  available_count : Nat
  size_count : Nat
  write_pos : Nat
  read_pos : Nat
  ignore_count : Nat
  data : Nat → Nat

/-- `RingBuffer(size_t size)`: all counters start at 0 (their in-class
initializers); `size_count = size`.  A failed allocation is modelled by
`size = 0` (the constructor zeroes `size_count` in that case), and `mem`
is the arbitrary initial content of the allocation. -/
def RingBuffer.init (size : Nat) (mem : Nat → Nat) : RingBuffer :=
  { available_count := 0, size_count := size, write_pos := 0, read_pos := 0,
    ignore_count := 0, data := mem }

/-- `void write(T value)`: if `ignore_count > 0` decrement it and return;
otherwise `data[write_pos++] = value`, wrap with `if (write_pos > size_count)
write_pos = 0`, then either increment `available_count` (not yet full) or set
`read_pos = write_pos + 1` (full: overwrite-oldest). -/
def RingBuffer.write (b : RingBuffer) (value : Nat) : RingBuffer :=
  if b.ignore_count > 0 then
    { b with ignore_count := b.ignore_count - 1 }
  else
    let data' : Nat → Nat := fun i => if i = b.write_pos then value else b.data i
    let wp1 := b.write_pos + 1
    let wp2 := if wp1 > b.size_count then 0 else wp1
    if b.available_count < b.size_count then
      { b with data := data', write_pos := wp2,
               available_count := b.available_count + 1 }
    else
      { b with data := data', write_pos := wp2, read_pos := wp2 + 1 }

/-- `T read()`: `result = 0; if (available_count > 0) { if (read_pos >
size_count) read_pos = 0; result = data[read_pos++]; available_count--; }`.
Returns the C++ return value paired with the updated object. -/
def RingBuffer.read (b : RingBuffer) : Nat × RingBuffer :=
  if b.available_count > 0 then
    let rp := if b.read_pos > b.size_count then 0 else b.read_pos
    (b.data rp, { b with read_pos := rp + 1, available_count := b.available_count - 1 })
  else
    (0, b)

/-- `void clear()`: zero every cursor and counter. -/
def RingBuffer.clear (b : RingBuffer) : RingBuffer :=
  { b with ignore_count := 0, available_count := 0, write_pos := 0, read_pos := 0 }

/-- The loop of `clear(size_t count)`:
`for (int j = 0; j < count && available() > 0; j++) read();` -/
def RingBuffer.clearLoop : Nat → RingBuffer → RingBuffer
  | 0, b => b
  | n + 1, b =>
    if b.available_count > 0 then RingBuffer.clearLoop n b.read.2 else b

/-- `void clear(size_t count)`: `ignore_count = 0`; if `count >
available_count` set `ignore_count = count - available_count`; then run the
read loop. -/
def RingBuffer.clearN (b : RingBuffer) (count : Nat) : RingBuffer :=
  RingBuffer.clearLoop count
    { b with ignore_count :=
        if count > b.available_count then count - b.available_count else 0 }

/-- `size_t available()` -/
def RingBuffer.available (b : RingBuffer) : Nat := b.available_count

/-- `size_t size()` -/
def RingBuffer.size (b : RingBuffer) : Nat := b.size_count

/-- A sequence of `write` calls, oldest first. -/
def RingBuffer.writeAll (b : RingBuffer) (ws : List Nat) : RingBuffer :=
  ws.foldl RingBuffer.write b

/-- The values returned by `n` successive `read()` calls. -/
def RingBuffer.drainList : Nat → RingBuffer → List Nat
  | 0, _ => []
  | n + 1, b => b.read.1 :: RingBuffer.drainList n b.read.2

/- ---------------------------------------------------------------------------
Characterizations of a single `write` step, by branch.
--------------------------------------------------------------------------- -/

lemma RingBuffer.write_of_ignore (b : RingBuffer) (v : Nat) (h : 0 < b.ignore_count) :
    b.write v = { b with ignore_count := b.ignore_count - 1 } := by
  simp [RingBuffer.write, h]

lemma RingBuffer.write_of_not_full (b : RingBuffer) (v : Nat)
    (hig : b.ignore_count = 0) (h : b.available_count < b.size_count) :
    b.write v =
      { b with data := fun i => if i = b.write_pos then v else b.data i,
               write_pos := if b.write_pos + 1 > b.size_count then 0 else b.write_pos + 1,
               available_count := b.available_count + 1 } := by
  simp [RingBuffer.write, hig, h]

lemma RingBuffer.write_of_full (b : RingBuffer) (v : Nat)
    (hig : b.ignore_count = 0) (h : ¬ b.available_count < b.size_count) :
    b.write v =
      { b with data := fun i => if i = b.write_pos then v else b.data i,
               write_pos := if b.write_pos + 1 > b.size_count then 0 else b.write_pos + 1,
               read_pos := (if b.write_pos + 1 > b.size_count then 0 else b.write_pos + 1) + 1 } := by
  simp [RingBuffer.write, hig, h]

lemma RingBuffer.writeAll_append (b : RingBuffer) (ws : List Nat) (v : Nat) :
    b.writeAll (ws ++ [v]) = (b.writeAll ws).write v := by
  simp [RingBuffer.writeAll, List.foldl_append]

/- ---------------------------------------------------------------------------
Arithmetic helpers for the cursor positions.  The source's wraparound test is
`write_pos > size_count`, so the cursors range over the `size_count + 1` slot
indices `0 .. size_count`; all position arithmetic is modulo `C + 1`.
--------------------------------------------------------------------------- -/

lemma succ_mod_eq (M n : Nat) (hM : 0 < M) :
    (n + 1) % M = if n % M + 1 = M then 0 else n % M + 1 := by
  conv_lhs => rw [← Nat.mod_add_mod]
  by_cases h : n % M + 1 = M
  · simp [h, Nat.mod_self]
  · have hlt : n % M + 1 < M := lt_of_le_of_ne (Nat.mod_lt n hM) h
    rw [if_neg h, Nat.mod_eq_of_lt hlt]

lemma mod_ne_of_between (j n M : Nat) (h1 : j < n) (h2 : n < j + M) :
    j % M ≠ n % M := by
  intro h
  have hdvd : M ∣ n - j := (Nat.modEq_iff_dvd' h1.le).mp h
  have := Nat.le_of_dvd (by omega) hdvd
  omega

/- ---------------------------------------------------------------------------
The state reached from a fresh buffer of capacity `C > 0` by a sequence of
writes `ws` (oldest first).
--------------------------------------------------------------------------- -/

/-- Full characterization of the buffer state after the write sequence `ws`:
cursor positions, counters, and the contents of every slot still holding one
of the `C + 1` most recent writes. -/
def WriteInv (C : Nat) (ws : List Nat) (b : RingBuffer) : Prop :=
  b.size_count = C ∧
  b.ignore_count = 0 ∧
  b.write_pos = ws.length % (C + 1) ∧
  b.available_count = min ws.length C ∧
  b.read_pos = (if ws.length ≤ C then 0 else ws.length % (C + 1) + 1) ∧
  ∀ j, j < ws.length → ws.length < j + (C + 1) → b.data (j % (C + 1)) = ws.getD j 0

lemma writeAll_inv (C : Nat) (hC : 0 < C) (mem : Nat → Nat) (ws : List Nat) :
    WriteInv C ws ((RingBuffer.init C mem).writeAll ws) := by
  induction ws using List.reverseRecOn with
  | nil =>
    refine ⟨rfl, rfl, rfl, by simp [RingBuffer.init, RingBuffer.writeAll],
      by simp [RingBuffer.init, RingBuffer.writeAll], ?_⟩
    intro j hj
    simp at hj
  | append_singleton ws v ih =>
    obtain ⟨hsz, hig, hwp, hav, hrp, hdata⟩ := ih
    rw [RingBuffer.writeAll_append]
    generalize hb : (RingBuffer.init C mem).writeAll ws = b at hsz hig hwp hav hrp hdata ⊢
    by_cases hfull : ws.length < C
    · -- buffer not yet full: `available_count` increments, `read_pos` stays 0
      have havlt : b.available_count < b.size_count := by rw [hav, hsz]; omega
      rw [RingBuffer.write_of_not_full b v hig havlt]
      have hwp' : b.write_pos = ws.length := by
        rw [hwp, Nat.mod_eq_of_lt (by omega)]
      have hcond : ¬ b.write_pos + 1 > b.size_count := by rw [hwp', hsz]; omega
      refine ⟨hsz, hig, ?_, ?_, ?_, ?_⟩
      · show (if b.write_pos + 1 > b.size_count then 0 else b.write_pos + 1)
            = (ws ++ [v]).length % (C + 1)
        rw [if_neg hcond, hwp']
        simp only [List.length_append, List.length_singleton]
        exact (Nat.mod_eq_of_lt (by omega)).symm
      · show b.available_count + 1 = min (ws ++ [v]).length C
        rw [hav]
        simp only [List.length_append, List.length_singleton]
        omega
      · show b.read_pos = if (ws ++ [v]).length ≤ C then 0 else (ws ++ [v]).length % (C + 1) + 1
        rw [hrp]
        simp only [List.length_append, List.length_singleton]
        rw [if_pos (by omega : ws.length ≤ C), if_pos (by omega : ws.length + 1 ≤ C)]
      · intro j hj hj2
        simp only [List.length_append, List.length_singleton] at hj hj2
        show (if j % (C + 1) = b.write_pos then v else b.data (j % (C + 1)))
            = (ws ++ [v]).getD j 0
        by_cases hjn : j = ws.length
        · subst hjn
          rw [if_pos (by rw [hwp', Nat.mod_eq_of_lt (by omega)]),
            List.getD_append_right ws [v] 0 ws.length le_rfl]
          simp
        · have hjlt : j < ws.length := by omega
          have hne : ¬ j % (C + 1) = b.write_pos := by
            rw [hwp', Nat.mod_eq_of_lt (by omega : j < C + 1)]
            exact hjn
          rw [if_neg hne, List.getD_append ws [v] 0 j hjlt]
          exact hdata j hjlt (by omega)
    · -- buffer full: overwrite-oldest, `read_pos` tracks the wrapped cursor
      have havge : ¬ b.available_count < b.size_count := by rw [hav, hsz]; omega
      rw [RingBuffer.write_of_full b v hig havge]
      have hwp2 : (if b.write_pos + 1 > b.size_count then 0 else b.write_pos + 1)
          = (ws.length + 1) % (C + 1) := by
        have hmodlt : ws.length % (C + 1) < C + 1 := Nat.mod_lt ws.length (by omega)
        rw [hwp, hsz, succ_mod_eq (C + 1) ws.length (by omega)]
        by_cases h : ws.length % (C + 1) + 1 = C + 1
        · rw [if_pos (by omega), if_pos h]
        · rw [if_neg (by omega), if_neg h]
      refine ⟨hsz, hig, ?_, ?_, ?_, ?_⟩
      · show (if b.write_pos + 1 > b.size_count then 0 else b.write_pos + 1)
            = (ws ++ [v]).length % (C + 1)
        rw [hwp2]
        simp only [List.length_append, List.length_singleton]
      · show b.available_count = min (ws ++ [v]).length C
        rw [hav]
        simp only [List.length_append, List.length_singleton]
        omega
      · show (if b.write_pos + 1 > b.size_count then 0 else b.write_pos + 1) + 1
            = if (ws ++ [v]).length ≤ C then 0 else (ws ++ [v]).length % (C + 1) + 1
        rw [hwp2]
        simp only [List.length_append, List.length_singleton]
        rw [if_neg (by omega : ¬ ws.length + 1 ≤ C)]
      · intro j hj hj2
        simp only [List.length_append, List.length_singleton] at hj hj2
        show (if j % (C + 1) = b.write_pos then v else b.data (j % (C + 1)))
            = (ws ++ [v]).getD j 0
        by_cases hjn : j = ws.length
        · subst hjn
          rw [if_pos (by rw [hwp]), List.getD_append_right ws [v] 0 ws.length le_rfl]
          simp
        · have hjlt : j < ws.length := by omega
          have hne : ¬ j % (C + 1) = b.write_pos := by
            rw [hwp]
            exact mod_ne_of_between j ws.length (C + 1) hjlt (by omega)
          rw [if_neg hne, List.getD_append ws [v] 0 j hjlt]
          exact hdata j hjlt (by omega)

/-- Draining a buffer whose `available_count` entries, starting at the (wrapped)
read cursor, hold the values `vs` returns exactly `vs`. -/
lemma drainList_spec (C : Nat) (vs : List Nat) :
    ∀ b : RingBuffer,
      b.size_count = C →
      b.available_count = vs.length →
      b.read_pos ≤ C + 1 →
      (∀ i, i < vs.length → b.data ((b.read_pos + i) % (C + 1)) = vs.getD i 0) →
      RingBuffer.drainList vs.length b = vs := by
  induction vs with
  | nil => intro b _ _ _ _; rfl
  | cons v vs ih =>
    intro b hsz hav hrp hdata
    have hpos : 0 < b.available_count := by rw [hav]; simp
    have hread : b.read = (b.data (if b.read_pos > b.size_count then 0 else b.read_pos),
        { b with read_pos := (if b.read_pos > b.size_count then 0 else b.read_pos) + 1,
                 available_count := b.available_count - 1 }) := by
      simp [RingBuffer.read, hpos]
    have hrpn : (if b.read_pos > b.size_count then 0 else b.read_pos)
        = b.read_pos % (C + 1) := by
      by_cases h : b.read_pos > b.size_count
      · rw [if_pos h]
        have : b.read_pos = C + 1 := by rw [hsz] at h; omega
        rw [this, Nat.mod_self]
      · rw [if_neg h, Nat.mod_eq_of_lt (by rw [hsz] at h; omega)]
    show b.read.1 :: RingBuffer.drainList vs.length b.read.2 = v :: vs
    have hhead : b.read.1 = v := by
      rw [hread, hrpn]
      have h0 := hdata 0 (by simp)
      simpa using h0
    have htail : RingBuffer.drainList vs.length b.read.2 = vs := by
      rw [hread]
      refine ih _ hsz (by rw [hav]; rfl) ?_ ?_
      · show (if b.read_pos > b.size_count then 0 else b.read_pos) + 1 ≤ C + 1
        rw [hrpn]
        have := Nat.mod_lt b.read_pos (show 0 < C + 1 by omega)
        omega
      · intro i hi
        show b.data (((if b.read_pos > b.size_count then 0 else b.read_pos) + 1 + i) % (C + 1))
            = vs.getD i 0
        rw [hrpn, add_assoc, Nat.mod_add_mod]
        have harg : b.read_pos + (1 + i) = b.read_pos + (i + 1) := by omega
        rw [harg]
        have := hdata (i + 1) (by simp; omega)
        rwa [List.getD_cons_succ] at this
    rw [hhead, htail]

/-- **C1.** For every capacity `C > 0` and every write sequence longer than
`C` (all performed with `ignore_count = 0`, as on a fresh buffer),
`available() ≤ C` holds after every write, the final `available()` is exactly
`C`, and draining by repeated `read()` yields exactly the most recent `C`
written values in write order. -/
theorem ringBuffer_keeps_newest_C (C : Nat) (hC : 0 < C) (mem : Nat → Nat)
    (ws : List Nat) (hlen : C < ws.length) :
    (∀ p, p <+: ws → ((RingBuffer.init C mem).writeAll p).available ≤ C) ∧
    ((RingBuffer.init C mem).writeAll ws).available = C ∧
    RingBuffer.drainList C ((RingBuffer.init C mem).writeAll ws)
      = ws.drop (ws.length - C) := by
  obtain ⟨hsz, hig, hwp, hav, hrp, hdata⟩ := writeAll_inv C hC mem ws
  refine ⟨?_, ?_, ?_⟩
  · intro p _
    obtain ⟨_, _, _, hav', _, _⟩ := writeAll_inv C hC mem p
    rw [RingBuffer.available, hav']
    omega
  · rw [RingBuffer.available, hav]
    omega
  · have hvslen : (ws.drop (ws.length - C)).length = C := by
      rw [List.length_drop]
      omega
    have hrple : ((RingBuffer.init C mem).writeAll ws).read_pos ≤ C + 1 := by
      rw [hrp, if_neg (by omega : ¬ ws.length ≤ C)]
      have := Nat.mod_lt ws.length (show 0 < C + 1 by omega)
      omega
    have h := drainList_spec C (ws.drop (ws.length - C))
      ((RingBuffer.init C mem).writeAll ws) hsz (by rw [hav, hvslen]; omega) hrple ?_
    · rwa [hvslen] at h
    · intro i hi
      rw [hvslen] at hi
      rw [hrp, if_neg (by omega : ¬ ws.length ≤ C)]
      have harg : (ws.length % (C + 1) + 1 + i) % (C + 1) = (ws.length - C + i) % (C + 1) := by
        rw [add_assoc, Nat.mod_add_mod]
        have : ws.length + (1 + i) = (ws.length - C + i) + (C + 1) := by omega
        rw [this, Nat.add_mod_right]
      rw [harg]
      have hj := hdata (ws.length - C + i) (by omega) (by omega)
      have h1 : ws.length - C + i < ws.length := by omega
      have h2 : i < (ws.drop (ws.length - C)).length := by rw [hvslen]; exact hi
      rw [hj, List.getD_eq_getElem ws 0 h1,
        List.getD_eq_getElem (ws.drop (ws.length - C)) 0 h2]
      exact (List.getElem_drop ws).symm

/-- Witness for C1 at `C = 2`, `ws = [1, 2, 3, 4]`: the drain returns the
newest two values `[3, 4]`. -/
theorem ringBuffer_keeps_newest_C_witness :
    RingBuffer.drainList 2 ((RingBuffer.init 2 (fun _ => 0)).writeAll [1, 2, 3, 4])
      = [3, 4] := by
  have h := ringBuffer_keeps_newest_C 2 (by omega) (fun _ => 0) [1, 2, 3, 4] (by decide)
  exact h.2.2.trans rfl

/- ---------------------------------------------------------------------------
`clear(size_t count)` and the windowing step of `capture()`.
--------------------------------------------------------------------------- -/

lemma RingBuffer.read_of_pos (b : RingBuffer) (h : 0 < b.available_count) :
    b.read = (b.data (if b.read_pos > b.size_count then 0 else b.read_pos),
      { b with read_pos := (if b.read_pos > b.size_count then 0 else b.read_pos) + 1,
               available_count := b.available_count - 1 }) := by
  simp [RingBuffer.read, h]

lemma RingBuffer.clearLoop_succ (n : Nat) (b : RingBuffer) :
    RingBuffer.clearLoop (n + 1) b =
      if b.available_count > 0 then RingBuffer.clearLoop n b.read.2 else b := rfl

/-- The read loop of `clear(count)` only consumes entries: it lowers
`available_count` by at most the iteration count and leaves `ignore_count`,
`size_count` and the stored data alone. -/
lemma clearLoop_state (n : Nat) : ∀ b : RingBuffer,
    (RingBuffer.clearLoop n b).available_count = b.available_count - n ∧
    (RingBuffer.clearLoop n b).ignore_count = b.ignore_count ∧
    (RingBuffer.clearLoop n b).size_count = b.size_count ∧
    (RingBuffer.clearLoop n b).data = b.data := by
  induction n with
  | zero => intro b; exact ⟨rfl, rfl, rfl, rfl⟩
  | succ n ih =>
    intro b
    rw [RingBuffer.clearLoop_succ]
    by_cases h : b.available_count > 0
    · rw [if_pos h]
      have hA : b.read.2.available_count = b.available_count - 1 := by
        rw [RingBuffer.read_of_pos b h]
      have hI : b.read.2.ignore_count = b.ignore_count := by
        rw [RingBuffer.read_of_pos b h]
      have hS : b.read.2.size_count = b.size_count := by
        rw [RingBuffer.read_of_pos b h]
      have hD : b.read.2.data = b.data := by
        rw [RingBuffer.read_of_pos b h]
      obtain ⟨h1, h2, h3, h4⟩ := ih b.read.2
      rw [hA] at h1
      rw [hI] at h2
      rw [hS] at h3
      rw [hD] at h4
      refine ⟨?_, h2, h3, h4⟩
      rw [h1]
      omega
    · rw [if_neg h]
      refine ⟨by omega, rfl, rfl, rfl⟩

lemma RingBuffer.read_of_zero (b : RingBuffer) (h : b.available_count = 0) :
    b.read = (0, b) := by
  simp [RingBuffer.read, h]

/-- The values produced by reads depend only on `available_count`,
`size_count`, `read_pos` and the stored data — in particular not on
`ignore_count` (reads never look at it). -/
lemma drainList_congr (k : Nat) : ∀ b b' : RingBuffer,
    b'.available_count = b.available_count →
    b'.size_count = b.size_count →
    b'.read_pos = b.read_pos →
    b'.data = b.data →
    RingBuffer.drainList k b' = RingBuffer.drainList k b := by
  induction k with
  | zero => intros; rfl
  | succ k ih =>
    intro b b' hA hS hR hD
    show b'.read.1 :: RingBuffer.drainList k b'.read.2
        = b.read.1 :: RingBuffer.drainList k b.read.2
    by_cases h : b.available_count > 0
    · have h' : b'.available_count > 0 := by rw [hA]; exact h
      rw [RingBuffer.read_of_pos b h, RingBuffer.read_of_pos b' h']
      simp only []
      rw [hA, hS, hR, hD]
      congr 1
      exact ih _ _ rfl rfl rfl rfl
    · have h' : b'.available_count = 0 := by omega
      rw [RingBuffer.read_of_zero b (by omega), RingBuffer.read_of_zero b' h']
      simp only []
      congr 1
      exact ih _ _ hA hS hR hD

/-- Clearing `n ≤ available` entries drops exactly the `n` oldest: the
remaining drain is the `drop n` of the original drain. -/
lemma clearLoop_drain (n : Nat) : ∀ b : RingBuffer, n ≤ b.available_count →
    RingBuffer.drainList (b.available_count - n) (RingBuffer.clearLoop n b)
      = (RingBuffer.drainList b.available_count b).drop n := by
  induction n with
  | zero => intro b _; simp [RingBuffer.clearLoop]
  | succ n ih =>
    intro b h
    have hpos : b.available_count > 0 := by omega
    obtain ⟨k, hk⟩ : ∃ k, b.available_count = k + 1 := ⟨b.available_count - 1, by omega⟩
    rw [RingBuffer.clearLoop_succ, if_pos hpos]
    have hr2 : b.read.2.available_count = k := by
      rw [RingBuffer.read_of_pos b hpos]
      simp only []
      omega
    have step : RingBuffer.drainList b.available_count b
        = b.read.1 :: RingBuffer.drainList k b.read.2 := by
      rw [hk]
      rfl
    rw [step, List.drop_succ_cons]
    have := ih b.read.2 (by omega)
    rw [hr2] at this
    have harith : b.available_count - (n + 1) = k - n := by omega
    rw [harith]
    exact this

/-- Writes arriving while `ignore_count` covers them are all dropped:
only the counter moves. -/
lemma writeAll_of_ignore (ws : List Nat) : ∀ b : RingBuffer, ws.length ≤ b.ignore_count →
    b.writeAll ws = { b with ignore_count := b.ignore_count - ws.length } := by
  induction ws with
  | nil =>
    intro b _
    show b = { b with ignore_count := b.ignore_count - 0 }
    simp
  | cons v ws ih =>
    intro b h
    simp only [List.length_cons] at h
    have hpos : 0 < b.ignore_count := by omega
    show (b.write v).writeAll ws = _
    rw [RingBuffer.write_of_ignore b v hpos, ih _ (by simp; omega)]
    simp only [List.length_cons]
    congr 1
    omega

/-- The windowing step of `capture()` (lines 283–295):
`long keep = read_count - delay_count;` then
`keep > 0 && available() > keep` → `clear(available() - keep)`;
`keep < 0` → `clear(available() + abs(keep))`; `keep == 0` → `clear()`. -/
def windowBuffer (read_count delay_count : Int) (b : RingBuffer) : RingBuffer :=
  let keep : Int := read_count - delay_count
  if 0 < keep ∧ keep < (b.available : Int) then
    b.clearN (b.available - keep.toNat)
  else if keep < 0 then
    b.clearN (b.available + keep.natAbs)
  else if keep = 0 then
    b.clear
  else
    b

lemma clearN_fields (b : RingBuffer) (n : Nat) :
    (b.clearN n).available_count = b.available_count - n ∧
    (b.clearN n).ignore_count = (if n > b.available_count then n - b.available_count else 0) ∧
    (b.clearN n).size_count = b.size_count ∧
    (b.clearN n).data = b.data := by
  obtain ⟨h1, h2, h3, h4⟩ := clearLoop_state n
    { b with ignore_count := if n > b.available_count then n - b.available_count else 0 }
  exact ⟨h1, h2, h3, h4⟩

/-- **C7.** With `ignore_count = 0`: `clear(n)` for `n ≤ available()` lowers
`available()` by exactly `n` and arms no future drop; for `n > available()`
it empties the buffer, sets `ignore_count = n - available()`, the next
`n - available()` writes are silently dropped (`available()` stays 0), and
afterwards writes store normally again (on a buffer of positive capacity the
following write makes `available() = 1`). -/
theorem clearN_partial_and_deficit (b : RingBuffer) (n : Nat)
    (_hig : b.ignore_count = 0) :
    (n ≤ b.available →
      (b.clearN n).available = b.available - n ∧ (b.clearN n).ignore_count = 0) ∧
    (b.available < n →
      (b.clearN n).available = 0 ∧
      (b.clearN n).ignore_count = n - b.available ∧
      ∀ ws : List Nat, ws.length = n - b.available →
        ((b.clearN n).writeAll ws).available = 0 ∧
        ((b.clearN n).writeAll ws).ignore_count = 0 ∧
        (0 < b.size → ∀ v, (((b.clearN n).writeAll ws).write v).available = 1)) := by
  obtain ⟨h1, h2, h3, h4⟩ := clearN_fields b n
  simp only [RingBuffer.available, RingBuffer.size]
  constructor
  · intro hle
    refine ⟨h1, ?_⟩
    rw [h2, if_neg (by omega : ¬ n > b.available_count)]
  · intro hgt
    have hig2 : (b.clearN n).ignore_count = n - b.available_count := by
      rw [h2, if_pos (by omega : n > b.available_count)]
    refine ⟨by rw [h1]; omega, hig2, ?_⟩
    intro ws hws
    have hlen : ws.length ≤ (b.clearN n).ignore_count := by rw [hig2, hws]
    rw [writeAll_of_ignore ws (b.clearN n) hlen]
    have havz : (b.clearN n).available_count = 0 := by rw [h1]; omega
    have higz : (b.clearN n).ignore_count - ws.length = 0 := by
      rw [hig2, hws]
      omega
    refine ⟨havz, higz, ?_⟩
    intro hsz v
    have hig3 : ({ b.clearN n with
        ignore_count := (b.clearN n).ignore_count - ws.length } : RingBuffer).ignore_count
        = 0 := higz
    have hlt : ({ b.clearN n with
        ignore_count := (b.clearN n).ignore_count - ws.length } : RingBuffer).available_count
        < ({ b.clearN n with
        ignore_count := (b.clearN n).ignore_count - ws.length } : RingBuffer).size_count := by
      show (b.clearN n).available_count < (b.clearN n).size_count
      rw [havz, h3]
      exact hsz
    rw [RingBuffer.write_of_not_full _ v hig3 hlt]
    show (b.clearN n).available_count + 1 = 1
    rw [havz]

/-- Witness for C7 on a capacity-3 buffer holding `[10, 20, 30]`:
`clear(2)` leaves one entry and no pending drop; `clear(5)` empties the
buffer, drops the next two writes, and the write after that stores. -/
theorem clearN_partial_and_deficit_witness :
    ((((RingBuffer.init 3 (fun _ => 0)).writeAll [10, 20, 30]).clearN 2).available = 1 ∧
      (((RingBuffer.init 3 (fun _ => 0)).writeAll [10, 20, 30]).clearN 2).ignore_count = 0) ∧
    ((((RingBuffer.init 3 (fun _ => 0)).writeAll [10, 20, 30]).clearN 5).available = 0 ∧
      ((((RingBuffer.init 3 (fun _ => 0)).writeAll [10, 20, 30]).clearN 5).writeAll
          [7, 8]).ignore_count = 0 ∧
      (((((RingBuffer.init 3 (fun _ => 0)).writeAll [10, 20, 30]).clearN 5).writeAll
          [7, 8]).write 9).available = 1) := by
  have h2 := (clearN_partial_and_deficit
    ((RingBuffer.init 3 (fun _ => 0)).writeAll [10, 20, 30]) 2 rfl).1 (by decide)
  have h5 := (clearN_partial_and_deficit
    ((RingBuffer.init 3 (fun _ => 0)).writeAll [10, 20, 30]) 5 rfl).2 (by decide)
  obtain ⟨ha2, hi2⟩ := h2
  obtain ⟨ha5, hi5, hw5⟩ := h5
  obtain ⟨w1, w2, w3⟩ := hw5 [7, 8] (by decide)
  exact ⟨⟨ha2.trans (by decide), hi2⟩, ha5, w2, w3 (by decide) 9⟩

/-- **C5.** The windowing step of `capture()` with `keep = read_count -
delay_count`: if `0 < keep < available` exactly `available - keep` oldest
entries are removed and the retained drain is the newest `keep` values; if
`keep < 0` the buffer is emptied, `ignore_count` becomes `|keep|` and the
next `|keep|` writes are dropped; if `keep = 0` the buffer is fully
cleared. -/
theorem windowing_spec (rc dc : Int) (b : RingBuffer) :
    (0 < rc - dc → rc - dc < (b.available : Int) →
      (windowBuffer rc dc b).available = (rc - dc).toNat ∧
      (windowBuffer rc dc b).ignore_count = 0 ∧
      RingBuffer.drainList (rc - dc).toNat (windowBuffer rc dc b)
        = (RingBuffer.drainList b.available b).drop (b.available - (rc - dc).toNat)) ∧
    (rc - dc < 0 →
      (windowBuffer rc dc b).available = 0 ∧
      (windowBuffer rc dc b).ignore_count = (rc - dc).natAbs ∧
      ∀ ws : List Nat, ws.length = (rc - dc).natAbs →
        ((windowBuffer rc dc b).writeAll ws).available = 0 ∧
        ((windowBuffer rc dc b).writeAll ws).ignore_count = 0) ∧
    (rc - dc = 0 → windowBuffer rc dc b = b.clear) := by
  refine ⟨?_, ?_, ?_⟩
  · intro hk1 hk2
    have hcond : 0 < rc - dc ∧ rc - dc < ((b.available : Nat) : Int) := ⟨hk1, hk2⟩
    have hw : windowBuffer rc dc b = b.clearN (b.available - (rc - dc).toNat) := by
      simp only [windowBuffer]
      rw [if_pos hcond]
    rw [hw]
    obtain ⟨h1, h2, h3, h4⟩ := clearN_fields b (b.available - (rc - dc).toNat)
    simp only [RingBuffer.available] at *
    have htn : (rc - dc).toNat ≤ b.available_count := by omega
    refine ⟨by rw [h1]; omega, ?_, ?_⟩
    · rw [h2, if_neg (by omega : ¬ b.available_count - (rc - dc).toNat > b.available_count)]
    · show RingBuffer.drainList (rc - dc).toNat
          (RingBuffer.clearLoop (b.available_count - (rc - dc).toNat)
            { b with ignore_count := if b.available_count - (rc - dc).toNat > b.available_count
                then b.available_count - (rc - dc).toNat - b.available_count else 0 })
        = (RingBuffer.drainList b.available_count b).drop
            (b.available_count - (rc - dc).toNat)
      have hd := clearLoop_drain (b.available_count - (rc - dc).toNat)
        { b with ignore_count := if b.available_count - (rc - dc).toNat > b.available_count
            then b.available_count - (rc - dc).toNat - b.available_count else 0 }
        (by show b.available_count - (rc - dc).toNat ≤ b.available_count; omega)
      have hcount : b.available_count - (b.available_count - (rc - dc).toNat)
          = (rc - dc).toNat := by omega
      rw [show ({ b with ignore_count := if b.available_count - (rc - dc).toNat > b.available_count
            then b.available_count - (rc - dc).toNat - b.available_count else 0 }
          : RingBuffer).available_count = b.available_count from rfl, hcount] at hd
      rw [hd]
      exact congrArg (List.drop (b.available_count - (rc - dc).toNat))
        (drainList_congr b.available_count b _ rfl rfl rfl rfl)
  · intro hk
    have hw : windowBuffer rc dc b = b.clearN (b.available + (rc - dc).natAbs) := by
      simp only [windowBuffer]
      rw [if_neg (by omega), if_pos hk]
    rw [hw]
    obtain ⟨h1, h2, h3, h4⟩ := clearN_fields b (b.available + (rc - dc).natAbs)
    simp only [RingBuffer.available] at *
    have habs : 0 < (rc - dc).natAbs := by omega
    have hig2 : (b.clearN (b.available_count + (rc - dc).natAbs)).ignore_count
        = (rc - dc).natAbs := by
      rw [h2, if_pos (by omega)]
      omega
    refine ⟨by rw [h1]; omega, hig2, ?_⟩
    intro ws hws
    have hlen : ws.length ≤ (b.clearN (b.available_count + (rc - dc).natAbs)).ignore_count := by
      rw [hig2, hws]
    rw [writeAll_of_ignore ws _ hlen]
    refine ⟨?_, ?_⟩
    · show (b.clearN (b.available_count + (rc - dc).natAbs)).available_count = 0
      rw [h1]
      omega
    · show (b.clearN (b.available_count + (rc - dc).natAbs)).ignore_count - ws.length = 0
      rw [hig2, hws]
      omega
  · intro hk
    simp only [windowBuffer]
    rw [if_neg (by omega), if_neg (by omega), if_pos hk]

/-- Witness for C5 on a capacity-4 buffer holding `[10, 20, 30]`:
`read_count = 5, delay_count = 3` keeps the newest two entries;
`read_count = 3, delay_count = 5` empties the buffer and drops the next two
writes; `read_count = dc = 4` fully clears. -/
theorem windowing_spec_witness :
    ((windowBuffer 5 3 ((RingBuffer.init 4 (fun _ => 0)).writeAll [10, 20, 30])).available = 2 ∧
      RingBuffer.drainList 2
        (windowBuffer 5 3 ((RingBuffer.init 4 (fun _ => 0)).writeAll [10, 20, 30])) = [20, 30]) ∧
    ((windowBuffer 3 5 ((RingBuffer.init 4 (fun _ => 0)).writeAll [10, 20, 30])).available = 0 ∧
      (windowBuffer 3 5 ((RingBuffer.init 4 (fun _ => 0)).writeAll [10, 20, 30])).ignore_count = 2 ∧
      ((windowBuffer 3 5 ((RingBuffer.init 4 (fun _ => 0)).writeAll
          [10, 20, 30])).writeAll [7, 8]).available = 0) ∧
    windowBuffer 4 4 ((RingBuffer.init 4 (fun _ => 0)).writeAll [10, 20, 30])
      = ((RingBuffer.init 4 (fun _ => 0)).writeAll [10, 20, 30]).clear := by
  have hpos := (windowing_spec 5 3 ((RingBuffer.init 4 (fun _ => 0)).writeAll [10, 20, 30])).1
    (by decide) (by decide)
  have hneg := ((windowing_spec 3 5 ((RingBuffer.init 4 (fun _ => 0)).writeAll [10, 20, 30])).2.1
    (by decide))
  have hzer := (windowing_spec 4 4 ((RingBuffer.init 4 (fun _ => 0)).writeAll [10, 20, 30])).2.2
    (by decide)
  obtain ⟨p1, p2, p3⟩ := hpos
  obtain ⟨n1, n2, n3⟩ := hneg
  obtain ⟨w1, w2⟩ := n3 [7, 8] (by decide)
  exact ⟨⟨p1, p3.trans (by decide)⟩, ⟨n1, n2, w1⟩, hzer⟩

/- ---------------------------------------------------------------------------
`captureSample` and the trigger-wait phase of `capture()`.
--------------------------------------------------------------------------- -/

/-- `T captureSample()` (lines 355–366): `actual = impl_ptr->readAll()` is the
value sampled from the pins; in continuous mode it is written to the
transport (recorded by the `Bool`), when the status is already TRIGGERED it
is stored in the ring buffer, and otherwise it is discarded; `actual` is
returned either way. -/
def captureSample (is_continuous_capture : Bool) (status_value : Status)
    (buffer : RingBuffer) (actual : Nat) : Nat × RingBuffer × Bool :=
  if is_continuous_capture then
    (actual, buffer, true)
  else if status_value = Status.TRIGGERED then
    (actual, buffer.write actual, false)
  else
    (actual, buffer, false)

/-- The trigger-wait loop of `capture()` (line 275):
`while ((trigger_values ^ captureSample()) & trigger_mask) ;`.
Each iteration consumes one sampled pin value from the stream; the loop exits
on the first sample whose masked comparison is zero, returning it together
with the buffer as left by the loop and the unconsumed stream.  `none` models
a stream exhausted with no match (the C++ loop would still be spinning). -/
def triggerWaitLoop (trigger_mask trigger_values : Nat) (is_continuous_capture : Bool)
    (status_value : Status) (buffer : RingBuffer) :
    List Nat → Option (Nat × RingBuffer × List Nat)
  | [] => none
  | s :: rest =>
    let r := captureSample is_continuous_capture status_value buffer s
    if (trigger_values ^^^ r.1) &&& trigger_mask ≠ 0 then
      triggerWaitLoop trigger_mask trigger_values is_continuous_capture status_value r.2.1 rest
    else
      some (r.1, r.2.1, rest)

/-- The trigger phase of `capture()` (lines 272–281): with a nonzero mask,
run the wait loop, then `setStatus(TRIGGERED)`; with mask 0,
`setStatus(TRIGGERED)` immediately without sampling.  During the wait the
status is ARMED (set by the ARM command just before `capture()`). -/
def capturePhaseTrigger (trigger_mask trigger_values : Nat)
    (is_continuous_capture : Bool) (buffer : RingBuffer) (samples : List Nat) :
    Option (Status × RingBuffer × List Nat) :=
  if trigger_mask ≠ 0 then
    (triggerWaitLoop trigger_mask trigger_values is_continuous_capture Status.ARMED
        buffer samples).map (fun r => (Status.TRIGGERED, r.2.1, r.2.2))
  else
    some (Status.TRIGGERED, buffer, samples)

lemma captureSample_fst (c : Bool) (st : Status) (b : RingBuffer) (s : Nat) :
    (captureSample c st b s).1 = s := by
  unfold captureSample
  split_ifs <;> rfl

lemma triggerWaitLoop_cons (m v : Nat) (c : Bool) (st : Status) (b : RingBuffer)
    (x : Nat) (xs : List Nat) :
    triggerWaitLoop m v c st b (x :: xs)
      = (if (v ^^^ (captureSample c st b x).1) &&& m ≠ 0 then
          triggerWaitLoop m v c st (captureSample c st b x).2.1 xs
        else
          some ((captureSample c st b x).1, (captureSample c st b x).2.1, xs)) := rfl

/-- Soundness of the wait loop: a successful exit yields the first sample of
the stream matching `(v XOR s) & m == 0`, all earlier samples mismatching. -/
lemma triggerWaitLoop_sound (m v : Nat) (c : Bool) (st : Status) :
    ∀ (samples : List Nat) (b : RingBuffer) (s : Nat) (b' : RingBuffer) (rest : List Nat),
      triggerWaitLoop m v c st b samples = some (s, b', rest) →
      ∃ pre, samples = pre ++ s :: rest ∧ (v ^^^ s) &&& m = 0 ∧
        ∀ x ∈ pre, (v ^^^ x) &&& m ≠ 0 := by
  intro samples
  induction samples with
  | nil =>
    intro b s b' rest h
    exact absurd h (by simp [triggerWaitLoop])
  | cons x xs ih =>
    intro b s b' rest h
    rw [triggerWaitLoop_cons, captureSample_fst] at h
    by_cases hm : (v ^^^ x) &&& m ≠ 0
    · rw [if_pos hm] at h
      obtain ⟨pre, hpre, hmatch, hall⟩ := ih _ s b' rest h
      refine ⟨x :: pre, by rw [hpre]; rfl, hmatch, ?_⟩
      intro y hy
      rcases List.mem_cons.mp hy with hy | hy
      · rw [hy]; exact hm
      · exact hall y hy
    · rw [if_neg hm] at h
      simp only [Option.some.injEq, Prod.mk.injEq] at h
      obtain ⟨hs, hb, hrest⟩ := h
      refine ⟨[], ?_, ?_, by simp⟩
      · rw [List.nil_append, ← hs, ← hrest]
      · rw [← hs]
        omega

/-- **C6.** The engine moves from ARMED to TRIGGERED only after sampling a
value `s` with `(v XOR s) & m == 0`; every sample consumed before it
mismatched; with `m = 0` the transition is immediate and no sample is
consumed. -/
theorem trigger_match_spec (m v : Nat) (c : Bool) (b : RingBuffer) :
    (m = 0 → ∀ samples, capturePhaseTrigger m v c b samples
      = some (Status.TRIGGERED, b, samples)) ∧
    (m ≠ 0 → ∀ samples st b' rest,
      capturePhaseTrigger m v c b samples = some (st, b', rest) →
      st = Status.TRIGGERED ∧
      ∃ pre s, samples = pre ++ s :: rest ∧ (v ^^^ s) &&& m = 0 ∧
        ∀ x ∈ pre, (v ^^^ x) &&& m ≠ 0) := by
  constructor
  · intro hm samples
    simp [capturePhaseTrigger, hm]
  · intro hm samples st b' rest h
    rw [capturePhaseTrigger, if_pos hm] at h
    obtain ⟨⟨s0, b0, rest0⟩, hloop, hmap⟩ := Option.map_eq_some'.mp h
    simp only [Prod.mk.injEq] at hmap
    obtain ⟨hst, hb, hrest⟩ := hmap
    obtain ⟨pre, hpre, hmatch, hall⟩ := triggerWaitLoop_sound m v c Status.ARMED
      samples b s0 b0 rest0 hloop
    exact ⟨hst.symm, pre, s0, by rw [hpre, hrest], hmatch, hall⟩

/-- Witness for C6: with mask 0 the phase triggers without consuming the
stream; with mask 1, values 1, the stream `[0, 1]` matches at its second
sample, the first having mismatched. -/
theorem trigger_match_spec_witness :
    capturePhaseTrigger 0 5 false (RingBuffer.init 2 (fun _ => 0)) [9]
      = some (Status.TRIGGERED, RingBuffer.init 2 (fun _ => 0), [9]) ∧
    (∃ pre s, ([0, 1] : List Nat) = pre ++ s :: ([] : List Nat) ∧
      (1 ^^^ s) &&& 1 = 0 ∧ ∀ x ∈ pre, (1 ^^^ x) &&& 1 ≠ 0) := by
  constructor
  · exact (trigger_match_spec 0 5 false (RingBuffer.init 2 (fun _ => 0))).1 rfl [9]
  · have h := (trigger_match_spec 1 1 false (RingBuffer.init 2 (fun _ => 0))).2
      (by decide) [0, 1] Status.TRIGGERED (RingBuffer.init 2 (fun _ => 0)) [] rfl
    exact h.2

/-- **C9.** While the status is ARMED and continuous capture is off,
`captureSample` discards the sample: the ring buffer is returned unchanged
and nothing is written to the transport; consequently the whole trigger wait
leaves the buffer exactly as it found it. -/
theorem armed_samples_not_stored (b : RingBuffer) (s m v : Nat)
    (samples : List Nat) (r : Nat × RingBuffer × List Nat) :
    captureSample false Status.ARMED b s = (s, b, false) ∧
    (triggerWaitLoop m v false Status.ARMED b samples = some r → r.2.1 = b) := by
  constructor
  · rfl
  · have key : ∀ (xs : List Nat) (b0 : RingBuffer) (r0 : Nat × RingBuffer × List Nat),
        triggerWaitLoop m v false Status.ARMED b0 xs = some r0 → r0.2.1 = b0 := by
      intro xs
      induction xs with
      | nil =>
        intro b0 r0 h
        exact absurd h (by simp [triggerWaitLoop])
      | cons x xs ih =>
        intro b0 r0 h
        rw [triggerWaitLoop_cons] at h
        have hcs : captureSample false Status.ARMED b0 x = (x, b0, false) := rfl
        rw [hcs] at h
        by_cases hm : (v ^^^ x) &&& m ≠ 0
        · rw [if_pos hm] at h
          exact ih b0 r0 h
        · rw [if_neg hm] at h
          rw [← Option.some.inj h]
    exact key samples b r

/-- Witness for C9: a concrete ARMED sample is discarded, and a two-sample
trigger wait returns the buffer it started with. -/
theorem armed_samples_not_stored_witness :
    captureSample false Status.ARMED (RingBuffer.init 2 (fun _ => 0)) 5
      = (5, RingBuffer.init 2 (fun _ => 0), false) ∧
    ((1, RingBuffer.init 2 (fun _ => 0), ([] : List Nat)) :
        Nat × RingBuffer × List Nat).2.1 = RingBuffer.init 2 (fun _ => 0) := by
  have h := armed_samples_not_stored (RingBuffer.init 2 (fun _ => 0)) 5 1 1 [0, 1]
    (1, RingBuffer.init 2 (fun _ => 0), [])
  exact ⟨h.1, h.2 rfl⟩

/-- **C10.** `read()` on an empty buffer returns the zero value and leaves
every field of the buffer unchanged. -/
theorem read_empty_is_noop (b : RingBuffer) (h : b.available = 0) :
    b.read = (0, b) :=
  RingBuffer.read_of_zero b h

/-- Witness for C10 on a fresh buffer of capacity 5. -/
theorem read_empty_is_noop_witness :
    (RingBuffer.init 5 (fun _ => 0)).read = (0, RingBuffer.init 5 (fun _ => 0)) :=
  read_empty_is_noop (RingBuffer.init 5 (fun _ => 0)) rfl

/- ---------------------------------------------------------------------------
The `SUMP_RESET` command handler and `reset()`.
--------------------------------------------------------------------------- -/

/-- The `LogicAnalyzer` state touched by the RESET path: the session status,
the ring buffer and the debounce deadline `sump_reset_igorne_timeout`. -/
structure ResetContext where
  status_value : Status
  buffer : RingBuffer
  sump_reset_igorne_timeout : Nat

/-- The `case SUMP_RESET` arm of `processCommand(int)` (lines 647–653), with
the value of `millis()` passed in.  Outside the debounce window
(`millis() > sump_reset_igorne_timeout`) it logs and re-arms the window
(`sump_reset_igorne_timeout = millis() + 500`); inside the window it does
nothing.  The returned list collects the events raised (there are none).
Note that the handler never calls `reset()`. -/
def processSumpReset (millis : Nat) (s : ResetContext) : ResetContext × List Event :=
  if millis > s.sump_reset_igorne_timeout then
    ({ s with sump_reset_igorne_timeout := millis + 500 }, [])
  else
    (s, [])

/-- `void reset()` (lines 467–472): `setStatus(STOPPED)` (which raises
STATUS), `memset` of the buffer storage to zero, `buffer_ptr->clear()`, and
`raiseEvent(RESET)`.  Defined in the source but invoked from nowhere. -/
def LogicAnalyzer.reset (s : ResetContext) : ResetContext × List Event :=
  ({ s with status_value := Status.STOPPED,
            buffer := { s.buffer.clear with data := fun _ => 0 } },
   [Event.STATUS, Event.RESET])

/-- **C2 (failing input).** Processing a RESET outside the cool-down window
(`millis = 1000`, deadline 0) on a TRIGGERED session holding one sample: the
handler leaves the status TRIGGERED, the buffer untouched, raises no event,
and only advances the debounce deadline to 1500 — whereas the `reset()` the
claim (and the handler's own comment) describe would stop the session, clear
the buffer and raise RESET. -/
theorem sump_reset_handler_does_not_reset :
    (1000 : Nat) > 0 ∧
    (processSumpReset 1000
        ⟨Status.TRIGGERED, (RingBuffer.init 4 (fun _ => 0)).write 5, 0⟩).1.status_value
      = Status.TRIGGERED ∧
    (processSumpReset 1000
        ⟨Status.TRIGGERED, (RingBuffer.init 4 (fun _ => 0)).write 5, 0⟩).1.buffer.available
      = 1 ∧
    (processSumpReset 1000
        ⟨Status.TRIGGERED, (RingBuffer.init 4 (fun _ => 0)).write 5, 0⟩).2 = [] ∧
    (processSumpReset 1000
        ⟨Status.TRIGGERED, (RingBuffer.init 4 (fun _ => 0)).write 5,
          0⟩).1.sump_reset_igorne_timeout = 1500 ∧
    (LogicAnalyzer.reset
        ⟨Status.TRIGGERED, (RingBuffer.init 4 (fun _ => 0)).write 5, 0⟩).1.status_value
      = Status.STOPPED ∧
    (LogicAnalyzer.reset
        ⟨Status.TRIGGERED, (RingBuffer.init 4 (fun _ => 0)).write 5, 0⟩).1.buffer.available
      = 0 ∧
    (LogicAnalyzer.reset
        ⟨Status.TRIGGERED, (RingBuffer.init 4 (fun _ => 0)).write 5, 0⟩).2
      = [Event.STATUS, Event.RESET] := by
  refine ⟨by decide, rfl, rfl, rfl, rfl, rfl, rfl, rfl⟩

/-- **C4 (failing input).** On a capacity-0 buffer — the constructor's
degradation after an allocation failure — `write(7)` is not a storage-free
no-op: before any capacity check it stores 7 through the buffer pointer at
slot 0 (in the C++ an out-of-bounds store, a null-pointer store when the
allocation returned `nullptr`) and moves `read_pos` to 1.  The observable
counters do behave as claimed: `available()` stays 0 and `read()` returns
the zero value. -/
theorem zero_capacity_write_stores :
    (((RingBuffer.init 0 (fun _ => 0)).write 7).data 0 = 7 ∧
      (RingBuffer.init 0 (fun _ => 0)).data 0 = 0) ∧
    ((RingBuffer.init 0 (fun _ => 0)).write 7).read_pos = 1 ∧
    ((RingBuffer.init 0 (fun _ => 0)).write 7).available = 0 ∧
    ((RingBuffer.init 0 (fun _ => 0)).write 7).read.1 = 0 := by
  refine ⟨⟨rfl, rfl⟩, rfl, rfl, rfl⟩

/- ---------------------------------------------------------------------------
`dumpData()` and the wire layout of dumped samples.
--------------------------------------------------------------------------- -/

/-- The four bytes of a `uint32_t` as laid out in memory on the little-endian
targets this firmware supports (AVR Arduinos, RP2040 in
`capture_raspberry_pico.h`), i.e. what `stream().write((uint8_t*)&value, 4)`
emits: least-significant byte first. -/
def bytesOfUInt32LE (v : Nat) : List Nat :=
  [v % 256, v / 256 % 256, v / 65536 % 256, v / 16777216 % 256]

/-- Big-endian layout of a 32-bit word — the wire format the spec claims for
sample dumps (what an `htonl` before the write would have produced). -/
def bytesOfUInt32BE (v : Nat) : List Nat :=
  [v / 16777216 % 256, v / 65536 % 256, v / 256 % 256, v % 256]

/-- Little-endian reassembly of a 4-byte group. -/
def decodeUInt32LE (l : List Nat) : Nat :=
  l.getD 0 0 + 256 * (l.getD 1 0 + 256 * (l.getD 2 0 + 256 * l.getD 3 0))

/-- `void dumpData()` (lines 587–595): `while (available() > 0) { uint32_t
value = buffer_ptr->read(); stream().write((uint8_t*)&value,
sizeof(uint32_t)); }` — every stored sample is read out, zero-extended to 32
bits, and its four bytes are emitted in native (little-endian) order; there
is no `htonl` on this path. -/
def dumpData (b : RingBuffer) : List Nat :=
  (RingBuffer.drainList b.available b).flatMap bytesOfUInt32LE

/-- **C3 (counterexample).** A buffer holding the single sample 1 dumps the
bytes `[1, 0, 0, 0]`; the claimed big-endian emission of the same drained
sample would be `[0, 0, 0, 1]`.  The dump is not big-endian. -/
theorem dumpData_not_big_endian :
    dumpData ((RingBuffer.init 4 (fun _ => 0)).write 1) = [1, 0, 0, 0] ∧
    (RingBuffer.drainList ((RingBuffer.init 4 (fun _ => 0)).write 1).available
        ((RingBuffer.init 4 (fun _ => 0)).write 1)).flatMap bytesOfUInt32BE = [0, 0, 0, 1] ∧
    dumpData ((RingBuffer.init 4 (fun _ => 0)).write 1)
      ≠ (RingBuffer.drainList ((RingBuffer.init 4 (fun _ => 0)).write 1).available
          ((RingBuffer.init 4 (fun _ => 0)).write 1)).flatMap bytesOfUInt32BE := by
  refine ⟨by decide, by decide, by decide⟩

lemma drainList_length (n : Nat) : ∀ b : RingBuffer,
    (RingBuffer.drainList n b).length = n := by
  induction n with
  | zero => intro b; rfl
  | succ n ih =>
    intro b
    show (b.read.1 :: RingBuffer.drainList n b.read.2).length = n + 1
    rw [List.length_cons, ih]

lemma bind_chunk (f : Nat → List Nat) (hf : ∀ v, (f v).length = 4) :
    ∀ (l : List Nat) (i : Nat), i < l.length →
      ((l.flatMap f).drop (4 * i)).take 4 = f (l.getD i 0) := by
  intro l
  induction l with
  | nil =>
    intro i hi
    simp at hi
  | cons x xs ih =>
    intro i hi
    rw [List.flatMap_cons]
    cases i with
    | zero =>
      rw [Nat.mul_zero, List.drop_zero, List.getD_cons_zero, ← hf x, List.take_left]
    | succ i =>
      have harith : 4 * (i + 1) = (f x).length + 4 * i := by rw [hf x]; ring
      rw [harith, List.drop_append, List.getD_cons_succ]
      exact ih i (by simpa using hi)

/-- **C3 (amended).** The dump of a completed batch capture emits each stored
sample as one 32-bit word in the device's native little-endian byte order:
four bytes per available entry, the `i`-th 4-byte group being the
little-endian encoding of the `i`-th drained sample; decoding the group
recovers the 32-bit sample value, and samples narrower than 32 bits are
zero-padded in the trailing high-order bytes. -/
theorem dumpData_little_endian_words (b : RingBuffer) :
    (dumpData b).length = 4 * b.available ∧
    (∀ i, i < b.available →
      ((dumpData b).drop (4 * i)).take 4
        = bytesOfUInt32LE ((RingBuffer.drainList b.available b).getD i 0)) ∧
    (∀ v, v < 4294967296 → decodeUInt32LE (bytesOfUInt32LE v) = v) ∧
    (∀ v, v < 256 → bytesOfUInt32LE v = [v, 0, 0, 0]) := by
  have hlen4 : ∀ v, (bytesOfUInt32LE v).length = 4 := by
    intro v
    rfl
  refine ⟨?_, ?_, ?_, ?_⟩
  · have hsum : ∀ l : List Nat,
        (l.map (List.length ∘ bytesOfUInt32LE)).sum = 4 * l.length := by
      intro l
      induction l with
      | nil => rfl
      | cons x xs ih =>
        rw [List.map_cons, List.sum_cons, ih, List.length_cons,
          show (List.length ∘ bytesOfUInt32LE) x = 4 from hlen4 x]
        ring
    rw [dumpData, List.length_flatMap, hsum, drainList_length]
  · intro i hi
    rw [dumpData]
    exact bind_chunk bytesOfUInt32LE hlen4 (RingBuffer.drainList b.available b) i
      (by rw [drainList_length]; exact hi)
  · intro v hv
    show v % 256 + 256 * (v / 256 % 256 + 256 * (v / 65536 % 256 + 256 * (v / 16777216 % 256))) = v
    omega
  · intro v hv
    show [v % 256, v / 256 % 256, v / 65536 % 256, v / 16777216 % 256] = [v, 0, 0, 0]
    have h1 : v % 256 = v := Nat.mod_eq_of_lt hv
    have h2 : v / 256 = 0 := Nat.div_eq_of_lt hv
    have h3 : v / 65536 = 0 := Nat.div_eq_of_lt (by omega)
    have h4 : v / 16777216 = 0 := Nat.div_eq_of_lt (by omega)
    rw [h1, h2, h3, h4]

/-- Witness for the amended C3 on a buffer holding `[1, 258]`: eight bytes
are dumped, the second group is the little-endian encoding of 258, decoding
recovers 258, and the narrow sample 7 is zero-padded. -/
theorem dumpData_little_endian_words_witness :
    (dumpData ((RingBuffer.init 4 (fun _ => 0)).writeAll [1, 258])).length = 8 ∧
    ((dumpData ((RingBuffer.init 4 (fun _ => 0)).writeAll [1, 258])).drop 4).take 4
      = bytesOfUInt32LE 258 ∧
    decodeUInt32LE (bytesOfUInt32LE 258) = 258 ∧
    bytesOfUInt32LE 7 = [7, 0, 0, 0] := by
  have h := dumpData_little_endian_words ((RingBuffer.init 4 (fun _ => 0)).writeAll [1, 258])
  refine ⟨h.1.trans (by decide), ?_, h.2.2.1 258 (by decide), h.2.2.2 7 (by decide)⟩
  have h2 := h.2.1 1 (by decide)
  rw [show (4 : Nat) * 1 = 4 from by norm_num] at h2
  exact h2.trans (by decide)

/- ---------------------------------------------------------------------------
`SUMP_SET_DIVIDER`: `setupDelay` and `setCaptureFrequency`.
--------------------------------------------------------------------------- -/

/-- `setupDelay(unsigned long divider)` (lines 611–615): the frequency passed
to `setCaptureFrequency` is `100000000l / (divider + 1)`.  `unsigned long`
is 32 bits wide on the supported targets, so the increment wraps
modulo `2^32`. -/
def setupDelay_frequency (divider : Nat) : Nat :=
  100000000 / ((divider + 1) % 4294967296)

/-- `setCaptureFrequency(value)` (lines 443–449) computes `delay_time_us =
(1000000.0 / value) - 1` in double precision.  For every frequency this
firmware can be asked for (`1 ≤ value ≤ 10^6`) the double quotient's floor
coincides with the exact rational floor — the quotient is at least `1/value
≥ 10^-6` away from any other integer while the rounding error is below
`10^-9` — so the computation is modelled with exact rational arithmetic. -/
def setCaptureFrequency_delay (value : Nat) : Int :=
  ⌊(1000000 : ℚ) / (value : ℚ) - 1⌋

lemma floor_rat_div_nat (a f : Nat) (hf : 0 < f) :
    ⌊(a : ℚ) / (f : ℚ)⌋ = ((a / f : Nat) : Int) := by
  have hfq : (0 : ℚ) < (f : ℚ) := by exact_mod_cast hf
  rw [Int.floor_eq_iff]
  constructor
  · rw [le_div_iff₀ hfq]
    exact_mod_cast Nat.div_mul_le_self a f
  · rw [div_lt_iff₀ hfq]
    have hdm := Nat.div_add_mod a f
    have hmod := Nat.mod_lt a hf
    have hkey : a < (a / f + 1) * f := by
      have h' : (a / f + 1) * f = f * (a / f) + f := by ring
      omega
    exact_mod_cast hkey

/-- **C8.** For a divider `d` in the range where the handler's arithmetic is
defined and nonnegative (`99 ≤ d`, `d + 1 ≤ 10^8`): the capture frequency is
set to `10^8 / (d+1)` Hz (positive and at most 1 MHz) and the inter-sample
delay to `10^6 / frequency - 1` µs. -/
theorem set_divider_frequency_and_delay (d : Nat) (h1 : 99 ≤ d) (h2 : d < 100000000) :
    setupDelay_frequency d = 100000000 / (d + 1) ∧
    0 < setupDelay_frequency d ∧
    setupDelay_frequency d ≤ 1000000 ∧
    setCaptureFrequency_delay (setupDelay_frequency d)
      = ((1000000 / setupDelay_frequency d : Nat) : Int) - 1 := by
  have hmod : (d + 1) % 4294967296 = d + 1 := Nat.mod_eq_of_lt (by omega)
  have hfreq : setupDelay_frequency d = 100000000 / (d + 1) := by
    rw [setupDelay_frequency, hmod]
  have hpos : 0 < setupDelay_frequency d := by
    rw [hfreq]
    exact Nat.div_pos (by omega) (by omega)
  refine ⟨hfreq, hpos, ?_, ?_⟩
  · rw [hfreq]
    calc 100000000 / (d + 1) ≤ 100000000 / 100 :=
          Nat.div_le_div_left (by omega) (by omega)
    _ = 1000000 := by norm_num
  · rw [setCaptureFrequency_delay,
      show (1 : ℚ) = ((1 : ℤ) : ℚ) from by norm_num, Int.floor_sub_int,
      show (1000000 : ℚ) = ((1000000 : Nat) : ℚ) from by norm_num,
      floor_rat_div_nat 1000000 (setupDelay_frequency d) hpos]

/-- Witness for C8 at the two dividers named by the spec: 99 ⇒ 1 MHz, 0 µs;
199 ⇒ 500 kHz, 1 µs. -/
theorem set_divider_frequency_and_delay_witness :
    setupDelay_frequency 99 = 1000000 ∧
    setCaptureFrequency_delay (setupDelay_frequency 99) = 0 ∧
    setupDelay_frequency 199 = 500000 ∧
    setCaptureFrequency_delay (setupDelay_frequency 199) = 1 := by
  have h99 := set_divider_frequency_and_delay 99 (by norm_num) (by norm_num)
  have h199 := set_divider_frequency_and_delay 199 (by norm_num) (by norm_num)
  refine ⟨h99.1.trans (by norm_num), ?_, h199.1.trans (by norm_num), ?_⟩
  · rw [h99.2.2.2, h99.1]
    norm_num
  · rw [h199.2.2.2, h199.1]
    norm_num

end logic_analyzer
